import Mathlib

/-!
# Verification of the two-column PDF layout-reconstruction core

Shallow embedding of `src/txt_preprocessor/pdf_text_extractor.py`:
the column boundary detector (`_find_column_boundary`), the fragment
classifier (`detect_columns`), the reading-order reconstructor
(`reorder_text_blocks` / `_interleave_columns`) and the text normalizer
(`clean_extracted_text`).

Modelling conventions:
* Python floats (page coordinates) are modelled as exact rationals `ℚ`.
  The embedding is faithful on the documented input domain: nonnegative
  coordinates and a positive page width (the program's input contract
  guarantees valid, non-degenerate bounding boxes).
* Python's stable `list.sort` is modelled by `List.insertionSort`, which is
  stable for a `≤` relation.
* A Python dict built by successive insertions keyed on `y0` is modelled as a
  function `ℚ → Option TextBlock` built by `Function.update`, so that a later
  insertion with the same key overwrites an earlier one.
* Strings are modelled as `List Char`; the character classes of `\s`, `\d`
  and `str.strip` are modelled for the ASCII range (` `, `\t`, `\n`, `\r`,
  `\x0b`, `\x0c` for whitespace, `0`-`9` for digits).
-/

/-- Bounding box `(x0, y0, x1, y1)` of a text fragment: left, top, right,
bottom in page coordinates. -/
structure BBox where
  x0 : ℚ
  y0 : ℚ
  x1 : ℚ
  y1 : ℚ
deriving DecidableEq

/-- The `TextBlock` dataclass: text content, bounding box, containing page and
column tag (`0` = left, `1` = right, `-1` = undetermined; the dataclass default
is `0`). -/
structure TextBlock where
  text : String
  bbox : BBox
  page_num : ℕ
  column : ℤ := 0
deriving DecidableEq

/-! ## Column boundary detector (`_find_column_boundary`) -/

/-- Bin index of a left edge `x`: `min(int(x / bin_size), 19)`.  For the
nonnegative coordinates of the input contract, Python's `int` truncation
agrees with `⌊·⌋`. -/
def binIdx (x bin_size : ℚ) : ℕ :=
  min (Int.toNat ⌊x / bin_size⌋) 19

/-- `bins[idx] += 1`: increment position `idx` of a counter list. -/
def incAt : List ℕ → ℕ → List ℕ
  | [], _ => []
  | b :: bs, 0 => (b + 1) :: bs
  | b :: bs, n + 1 => b :: incAt bs n

/-- The histogram loop: start from 20 zeroed bins and bump the bin of each
left-edge position. -/
def buildBins (xs : List ℚ) (bin_size : ℚ) : List ℕ :=
  xs.foldl (fun bins x => incAt bins (binIdx x bin_size)) (List.replicate 20 0)

/-- Python's `max` over a (nonempty) list of counters. -/
def maxNat : List ℕ → ℕ
  | [] => 0
  | a :: rest => rest.foldl max a

/-- The valley scan: indices `i ∈ 1..18` with `bins[i] < threshold` while both
neighbours are `≥ threshold`. -/
def valleysOf (bins : List ℕ) (threshold : ℚ) : List ℕ :=
  (List.range' 1 18).filter fun i =>
    decide (((bins.getD i 0 : ℕ) : ℚ) < threshold
      ∧ threshold ≤ ((bins.getD (i - 1) 0 : ℕ) : ℚ)
      ∧ threshold ≤ ((bins.getD (i + 1) 0 : ℕ) : ℚ))

/-- `TwoColumnPDFExtractor._find_column_boundary`. -/
def find_column_boundary (x_positions : List ℚ) (page_width : ℚ) : Option ℚ :=
  if x_positions.length < 4 then none
  else
    let bin_size := page_width / 20
    let bins := buildBins x_positions bin_size
    let threshold : ℚ := (maxNat bins : ℚ) * (3 / 10)
    let valleys := valleysOf bins threshold
    if valleys.isEmpty then none
    else some (((valleys.getD (valleys.length / 2) 0 : ℕ) : ℚ) * bin_size)

/-! ## Fragment classifier (`detect_columns`) -/

/-- `page_width = max(block.bbox[2] for block in blocks)` (`0` on the empty
list, on which the caller never reads it). -/
def pageWidth : List TextBlock → ℚ
  | [] => 0
  | b :: bs => bs.foldl (fun m x => max m x.bbox.x1) b.bbox.x1

/-- The boundary computed by `detect_columns`: the sorted left-edge positions
fed to `_find_column_boundary` together with the page width. -/
def boundaryOfBlocks (blocks : List TextBlock) : Option ℚ :=
  find_column_boundary ((blocks.map fun b => b.bbox.x0).insertionSort (· ≤ ·))
    (pageWidth blocks)

/-- `TwoColumnPDFExtractor.detect_columns`: tag every block with column `0`
(left of the boundary) or `1`, falling back to `page_width * 0.5` when no
boundary is detected. -/
def detect_columns (blocks : List TextBlock) : List TextBlock :=
  if blocks.isEmpty then blocks
  else
    let column_boundary :=
      match boundaryOfBlocks blocks with
      | some c => c
      | none => pageWidth blocks * (1 / 2)
    blocks.map fun b =>
      { b with column := if b.bbox.x0 < column_boundary then 0 else 1 }

/-! ## Reading-order reconstructor (`reorder_text_blocks`) -/

/-- The dict comprehension `{block.bbox[1]: block for block in blocks}`:
a map from `y0` to block in which a later block with the same `y0` overwrites
an earlier one. -/
def ymapOf (bs : List TextBlock) : ℚ → Option TextBlock :=
  bs.foldl (fun m b => Function.update m b.bbox.y0 (some b)) fun _ => none

/-- `sorted(set(left_y_map.keys()) | set(right_y_map.keys()))`: the distinct
`y0` values of both sides in ascending order. -/
def allY (left_blocks right_blocks : List TextBlock) : List ℚ :=
  (((left_blocks.map fun b => b.bbox.y0)
    ++ (right_blocks.map fun b => b.bbox.y0)).dedup).insertionSort (· ≤ ·)

/-- `TwoColumnPDFExtractor._interleave_columns`: for each distinct `y0` of
either side in ascending order, emit the left block at that `y0` if present,
then the right block at that `y0` if present. -/
def interleave_columns (left_blocks right_blocks : List TextBlock) : List TextBlock :=
  let left_y_map := ymapOf left_blocks
  let right_y_map := ymapOf right_blocks
  (allY left_blocks right_blocks).flatMap fun y =>
    (left_y_map y).toList ++ (right_y_map y).toList

/-- `page_blocks.sort(key=lambda b: b.bbox[1])`: the page's blocks in stable
ascending `y0` order. -/
def sortY (page_blocks : List TextBlock) : List TextBlock :=
  page_blocks.insertionSort fun a b => a.bbox.y0 ≤ b.bbox.y0

/-- `left_blocks`: the y-sorted blocks tagged `column == 0`. -/
def leftOf (page_blocks : List TextBlock) : List TextBlock :=
  (sortY page_blocks).filter fun b => decide (b.column = 0)

/-- `right_blocks`: the y-sorted blocks tagged `column == 1`. -/
def rightOf (page_blocks : List TextBlock) : List TextBlock :=
  (sortY page_blocks).filter fun b => decide (b.column = 1)

/-- The per-page body of `reorder_text_blocks`: sort the page's blocks by `y0`,
split into columns, and either interleave (two-column page) or emit the
y-sorted blocks directly (single-column page). -/
def processPage (page_blocks : List TextBlock) : List TextBlock :=
  if (leftOf page_blocks).isEmpty || (rightOf page_blocks).isEmpty then sortY page_blocks
  else interleave_columns (leftOf page_blocks) (rightOf page_blocks)

/-- `TwoColumnPDFExtractor.reorder_text_blocks`: group blocks by page and
process the pages in ascending `page_num` order. -/
def reorder_text_blocks (blocks : List TextBlock) : List TextBlock :=
  if blocks.isEmpty then blocks
  else
    (((blocks.map fun b => b.page_num).dedup).insertionSort (· ≤ ·)).flatMap fun p =>
      processPage (blocks.filter fun b => decide (b.page_num = p))

/-! ## Text normalizer (`clean_extracted_text`) -/

/-- Python `\s` (ASCII range): space, tab, newline, carriage return, vertical
tab and form feed. -/
def isSpacePy (c : Char) : Bool :=
  c == ' ' || c == '\t' || c == '\n' || c == '\r' || c == Char.ofNat 11 || c == Char.ofNat 12

/-- The character class `[ \t]` of the horizontal-whitespace regex. -/
def isHT (c : Char) : Bool :=
  c == ' ' || c == '\t'

/-- Python `\d` (ASCII range): `0`-`9`. -/
def isDigitPy (c : Char) : Bool :=
  '0' ≤ c && c ≤ '9'

/-- Effect of `re.sub(r'\n\s*\n\s*\n', '\n\n', ·)` on one maximal whitespace
run: if the run contains at least three newlines, the (greedy, leftmost) match
spans from the run's first newline to its last newline and is replaced by two
newlines; otherwise the run is unchanged. -/
def wsTransform (w : List Char) : List Char :=
  if 3 ≤ w.count '\n' then
    (w.takeWhile fun c => c != '\n')
      ++ '\n' :: '\n' :: (w.reverse.takeWhile fun c => c != '\n').reverse
  else w

/-- Scanner for the blank-line-collapsing substitution: `acc` is the reversed
whitespace run currently being read. -/
def sub1Go : List Char → List Char → List Char
  | acc, [] => wsTransform acc.reverse
  | acc, c :: cs =>
    if isSpacePy c then sub1Go (c :: acc) cs
    else wsTransform acc.reverse ++ c :: sub1Go [] cs

/-- `re.sub(r'\n\s*\n\s*\n', '\n\n', text)`. -/
def sub1 (l : List Char) : List Char :=
  sub1Go [] l

/-- `re.sub(r'[ \t]+', ' ', text)`: each maximal run of spaces/tabs becomes a
single space. -/
def sub2 : List Char → List Char
  | [] => []
  | [c] => [if isHT c then ' ' else c]
  | c :: d :: cs =>
    if isHT c && isHT d then sub2 (d :: cs)
    else (if isHT c then ' ' else c) :: sub2 (d :: cs)

/-- `re.sub(r'\n ', '\n', text)`: non-overlapping left-to-right removal of a
space directly after a newline. -/
def sub3 : List Char → List Char
  | [] => []
  | [c] => [c]
  | c :: d :: cs =>
    if c == '\n' && d == ' ' then c :: sub3 cs
    else c :: sub3 (d :: cs)

/-- `text.split('\n')`. -/
def splitNl : List Char → List (List Char)
  | [] => [[]]
  | c :: cs =>
    if c == '\n' then [] :: splitNl cs
    else
      match splitNl cs with
      | [] => [[c]]
      | l :: ls => (c :: l) :: ls

/-- `'\n'.join(lines)`. -/
def joinNl : List (List Char) → List Char
  | [] => []
  | [l] => l
  | l :: ls => l ++ '\n' :: joinNl ls

/-- `line.strip()`. -/
def stripL (l : List Char) : List Char :=
  ((l.dropWhile isSpacePy).reverse.dropWhile isSpacePy).reverse

/-- `re.match(r'^\d+$', line)` succeeds. -/
def isNumLine1 (l : List Char) : Bool :=
  !l.isEmpty && l.all isDigitPy

/-- `re.match(r'^\d+\s*$', line)` succeeds. -/
def isNumLine2 (l : List Char) : Bool :=
  let d := l.takeWhile isDigitPy
  !d.isEmpty && (l.drop d.length).all isSpacePy

/-- The per-line keep condition of the cleaning loop: not empty after
stripping, not a page-number line, not shorter than 3 characters. -/
def keepLine (l : List Char) : Bool :=
  !l.isEmpty && !isNumLine1 l && !isNumLine2 l && !(l.length < 3)

/-- `clean_extracted_text` on `List Char`. -/
def cleanL (t : List Char) : List Char :=
  if t.isEmpty then []
  else joinNl (((splitNl (sub3 (sub2 (sub1 t)))).map stripL).filter keepLine)

/-- `clean_extracted_text`. -/
def clean_extracted_text (s : String) : String :=
  String.mk (cleanL s.data)

/-! ## Helper lemmas about the y0-keyed maps -/

theorem head?_filter {α : Type} (p : α → Bool) (l : List α) :
    (l.filter p).head? = l.find? p := by
  induction l with
  | nil => rfl
  | cons a l ih =>
    by_cases h : p a
    · simp [List.filter_cons, h, List.find?_cons]
    · simp only [Bool.not_eq_true] at h
      simp [List.filter_cons, h, List.find?_cons, ih]

theorem getLast?_filter {α : Type} (p : α → Bool) (l : List α) :
    (l.filter p).getLast? = l.reverse.find? p := by
  rw [← List.head?_reverse, ← List.filter_reverse, head?_filter]

theorem ymapOf_foldl (bs : List TextBlock) (m : ℚ → Option TextBlock) (y : ℚ) :
    (bs.foldl (fun (m : ℚ → Option TextBlock) b => Function.update m b.bbox.y0 (some b)) m) y
      = (bs.reverse.find? fun b => decide (b.bbox.y0 = y)).or (m y) := by
  induction bs generalizing m with
  | nil => simp
  | cons b bs ih =>
    rw [List.foldl_cons, ih, List.reverse_cons, List.find?_append, Option.or_assoc]
    congr 1
    by_cases h : b.bbox.y0 = y
    · subst h
      simp [List.find?_cons, Function.update_same]
    · have h' : y ≠ b.bbox.y0 := fun hy => h hy.symm
      simp [List.find?_cons, h, Function.update_noteq h']

theorem ymapOf_eq (bs : List TextBlock) (y : ℚ) :
    ymapOf bs y = (bs.filter fun b => decide (b.bbox.y0 = y)).getLast? := by
  rw [getLast?_filter]
  simpa [ymapOf] using ymapOf_foldl bs (fun _ => none) y

theorem ymapOf_some (bs : List TextBlock) (y : ℚ) (b : TextBlock)
    (h : ymapOf bs y = some b) : b ∈ bs ∧ b.bbox.y0 = y := by
  rw [ymapOf_eq] at h
  have hmem := List.mem_of_getLast?_eq_some h
  rw [List.mem_filter] at hmem
  exact ⟨hmem.1, by simpa using hmem.2⟩

theorem mem_interleave {left right : List TextBlock} {b : TextBlock}
    (h : b ∈ interleave_columns left right) : b ∈ left ∨ b ∈ right := by
  unfold interleave_columns at h
  rw [List.mem_flatMap] at h
  obtain ⟨y, -, hy⟩ := h
  rw [List.mem_append] at hy
  rcases hy with hy | hy
  · rw [Option.mem_toList, Option.mem_def] at hy
    exact Or.inl (ymapOf_some _ _ _ hy).1
  · rw [Option.mem_toList, Option.mem_def] at hy
    exact Or.inr (ymapOf_some _ _ _ hy).1

theorem mem_sortY {l : List TextBlock} {b : TextBlock} (h : b ∈ sortY l) : b ∈ l :=
  (List.perm_insertionSort _ l).subset h

theorem mem_processPage {l : List TextBlock} {b : TextBlock}
    (h : b ∈ processPage l) : b ∈ l := by
  unfold processPage at h
  split at h
  · exact mem_sortY h
  · rcases mem_interleave h with hb | hb <;>
      exact mem_sortY (List.mem_filter.mp hb).1

/-! ## C10: the classifier only writes the `column` field -/

/-- C10: `detect_columns` changes only the `column` field of each block: the
`text`, `bbox` and `page_num` of every block, as well as the length and
relative order of the list, are the same before and after the call (Python's
"returns the very list it was given" is modelled as equality of the
column-erased lists). -/
theorem C10_detect_columns_frame (blocks : List TextBlock) :
    (detect_columns blocks).map (fun b => (b.text, b.bbox, b.page_num))
        = blocks.map (fun b => (b.text, b.bbox, b.page_num))
      ∧ (detect_columns blocks).length = blocks.length := by
  have hmap : (detect_columns blocks).map (fun b => (b.text, b.bbox, b.page_num))
      = blocks.map (fun b => (b.text, b.bbox, b.page_num)) := by
    unfold detect_columns
    split
    · rfl
    · rw [List.map_map]
      rfl
  refine ⟨hmap, ?_⟩
  have := congrArg List.length hmap
  simpa using this

/-! ## C3: midpoint fallback classification -/

/-- C3: when the boundary detector reports no boundary for a nonempty block
list, classification uses the fallback boundary `page_width * 0.5`: every
block with `x0 < page_width * 0.5` is tagged `column = 0` (LEFT) and every
other block is tagged `column = 1` (RIGHT). -/
theorem C3_fallback_classification (blocks : List TextBlock)
    (hne : blocks ≠ []) (hnb : boundaryOfBlocks blocks = none) :
    ∀ b ∈ detect_columns blocks,
      (b.bbox.x0 < pageWidth blocks * (1 / 2) → b.column = 0)
        ∧ (¬ b.bbox.x0 < pageWidth blocks * (1 / 2) → b.column = 1) := by
  intro b hb
  have hform : detect_columns blocks
      = blocks.map fun a =>
          { a with column := if a.bbox.x0 < pageWidth blocks * (1 / 2) then 0 else 1 } := by
    unfold detect_columns
    rw [if_neg (by simpa [List.isEmpty_iff] using hne), hnb]
  rw [hform, List.mem_map] at hb
  obtain ⟨a, -, rfl⟩ := hb
  refine ⟨fun hlt => ?_, fun hge => ?_⟩
  · show (if a.bbox.x0 < pageWidth blocks * (1 / 2) then (0 : ℤ) else 1) = 0
    exact if_pos hlt
  · show (if a.bbox.x0 < pageWidth blocks * (1 / 2) then (0 : ℤ) else 1) = 1
    exact if_neg hge

/-- Concrete fallback page for the C3 witness: two blocks, fewer than four
left-edge positions, so no boundary is detected. -/
def fallbackPage : List TextBlock :=
  [⟨"a", ⟨10, 5, 100, 6⟩, 0, -1⟩, ⟨"b", ⟨80, 7, 90, 8⟩, 0, -1⟩]

theorem C3_fallback_classification_witness :
    ({ text := "b", bbox := ⟨80, 7, 90, 8⟩, page_num := 0, column := 1 } : TextBlock).column
      = 1 := by
  have h := C3_fallback_classification fallbackPage (by decide) (by with_unfolding_all decide)
  exact (h _ (by with_unfolding_all decide)).2 (by with_unfolding_all decide)

/-! ## C4: when the detector reports "no boundary" -/

/-- C4 counterexample: the claim ties the guard to the number of *distinct*
left-edge positions, but `_find_column_boundary` counts positions with
multiplicity (`len(x_positions) < 4`).  Four fragments sharing only two
distinct left edges (clusters two bins apart) defeat the guard and produce a
boundary. -/
theorem C4_counterexample :
    (([10, 10, 70, 70] : List ℚ).dedup.length < 4)
      ∧ find_column_boundary [10, 10, 70, 70] 600 = some 30 := by
  with_unfolding_all decide

/-- C4 amended: the detector returns "no boundary found" exactly when fewer
than 4 left-edge positions (counted with multiplicity, i.e. fewer than 4
fragments) exist, or when the histogram contains no valleys. -/
theorem C4_no_boundary_conditions (x_positions : List ℚ) (page_width : ℚ) :
    find_column_boundary x_positions page_width = none
      ↔ x_positions.length < 4
        ∨ valleysOf (buildBins x_positions (page_width / 20))
            ((maxNat (buildBins x_positions (page_width / 20)) : ℚ) * (3 / 10)) = [] := by
  by_cases hlen : x_positions.length < 4
  · simp [find_column_boundary, hlen]
  · by_cases hv : (valleysOf (buildBins x_positions (page_width / 20))
        ((maxNat (buildBins x_positions (page_width / 20)) : ℚ) * (3 / 10))).isEmpty
    · simp [find_column_boundary, hlen, hv, List.isEmpty_iff.mp hv]
    · simp [find_column_boundary, hlen, hv, List.isEmpty_iff.not.mp hv]

/-! ## C5: page-order invariant of the reconstructor -/

theorem page_of_chunk (blocks : List TextBlock) (p : ℕ) :
    ∀ a ∈ processPage (blocks.filter fun b => decide (b.page_num = p)),
      a.page_num = p := by
  intro a ha
  have h := (List.mem_filter.mp (mem_processPage ha)).2
  simpa using h

/-- C5: in the output of `reorder_text_blocks` the page indices are
non-decreasing — no fragment of a later page ever precedes a fragment of an
earlier page, because the output is the concatenation of the per-page
sequences in ascending `page_num` order. -/
theorem C5_page_order (blocks : List TextBlock) :
    List.Pairwise (fun a b => a.page_num ≤ b.page_num) (reorder_text_blocks blocks) := by
  unfold reorder_text_blocks
  split
  · rename_i h
    rw [List.isEmpty_iff.mp h]
    exact List.Pairwise.nil
  · rw [List.flatMap_def, List.pairwise_flatten]
    constructor
    · intro l hl
      rw [List.mem_map] at hl
      obtain ⟨p, -, rfl⟩ := hl
      exact List.pairwise_of_forall_mem_list fun a ha b hb => by
        rw [page_of_chunk blocks p a ha, page_of_chunk blocks p b hb]
    · rw [List.pairwise_map]
      have hsorted : List.Sorted (· ≤ ·)
          (((blocks.map fun b => b.page_num).dedup).insertionSort (· ≤ ·)) :=
        List.sorted_insertionSort _ _
      exact List.Pairwise.imp_of_mem
        (fun {p q} _ _ hpq x hx y hy => by
          rw [page_of_chunk blocks p x hx, page_of_chunk blocks q y hy]; exact hpq)
        hsorted

/-! ## C6: single-column pages -/

instance : IsTotal TextBlock fun a b => a.bbox.y0 ≤ b.bbox.y0 :=
  ⟨fun a b => le_total a.bbox.y0 b.bbox.y0⟩

instance : IsTrans TextBlock fun a b => a.bbox.y0 ≤ b.bbox.y0 :=
  ⟨fun _ _ _ h h2 => le_trans h h2⟩

theorem processPage_single_column (page_blocks : List TextBlock) (c : ℤ)
    (hc : ∀ b ∈ page_blocks, b.column = c) :
    processPage page_blocks = sortY page_blocks := by
  unfold processPage
  split
  · rfl
  · rename_i h
    rw [Bool.or_eq_true, not_or, Bool.not_eq_true, Bool.not_eq_true,
      List.isEmpty_eq_false_iff_exists_mem, List.isEmpty_eq_false_iff_exists_mem] at h
    obtain ⟨⟨bl, hbl⟩, br, hbr⟩ := h
    have h0 : c = 0 := by
      have := (List.mem_filter.mp hbl).2
      rw [← hc bl (mem_sortY (List.mem_filter.mp hbl).1)]
      simpa using this
    have h1 : c = 1 := by
      have := (List.mem_filter.mp hbr).2
      rw [← hc br (mem_sortY (List.mem_filter.mp hbr).1)]
      simpa using this
    omega

/-- Concrete single-column page with a `y0` tie, for the C6 counterexample. -/
def tiePage : List TextBlock :=
  [⟨"a", ⟨10, 5, 20, 6⟩, 0, 0⟩, ⟨"b", ⟨30, 5, 40, 6⟩, 0, 0⟩]

/-- C6 counterexample: on a single-column page with two fragments sharing the
same `y0`, the reconstructor emits both fragments (in stable order), so the
emitted `y0` sequence is *not* strictly ascending as the claim states. -/
theorem C6_counterexample :
    (∀ b ∈ tiePage, b.column = 0)
      ∧ processPage tiePage = tiePage
      ∧ ¬ List.Pairwise (fun a b => a.bbox.y0 < b.bbox.y0) (processPage tiePage) := by
  refine ⟨by decide, by with_unfolding_all decide, ?_⟩
  intro hp
  rw [show processPage tiePage = tiePage by with_unfolding_all decide] at hp
  have := List.rel_of_pairwise_cons hp (List.mem_singleton_self _)
  exact absurd this (by decide)

/-- C6 amended: for a page whose fragments all carry one column tag (this also
covers the empty page), the reconstructor emits exactly the stable y-sort of
the page's fragments, unmodified: a permutation of the input in non-decreasing
`y0` order, strictly ascending whenever the `y0` values are pairwise
distinct. -/
theorem C6_single_column (page_blocks : List TextBlock) (c : ℤ)
    (hc : ∀ b ∈ page_blocks, b.column = c) :
    processPage page_blocks = sortY page_blocks
      ∧ (processPage page_blocks).Perm page_blocks
      ∧ List.Pairwise (fun a b => a.bbox.y0 ≤ b.bbox.y0) (processPage page_blocks)
      ∧ ((page_blocks.map fun b => b.bbox.y0).Nodup →
          List.Pairwise (fun a b => a.bbox.y0 < b.bbox.y0) (processPage page_blocks)) := by
  have heq := processPage_single_column page_blocks c hc
  have hperm : (processPage page_blocks).Perm page_blocks := by
    rw [heq]
    exact List.perm_insertionSort _ _
  have hle : List.Pairwise (fun a b => a.bbox.y0 ≤ b.bbox.y0) (processPage page_blocks) := by
    rw [heq]
    exact List.sorted_insertionSort _ _
  refine ⟨heq, hperm, hle, fun hnd => ?_⟩
  have hnd' : ((processPage page_blocks).map fun b => b.bbox.y0).Nodup :=
    ((hperm.map fun b => b.bbox.y0).nodup_iff).mpr hnd
  have hne : List.Pairwise (fun a b : TextBlock => a.bbox.y0 ≠ b.bbox.y0)
      (processPage page_blocks) := List.pairwise_map.mp hnd'
  exact (hle.and hne).imp fun h => lt_of_le_of_ne h.1 h.2

/-- Concrete tie-free single-column page for the C6 witness. -/
def singleColPage : List TextBlock :=
  [⟨"a", ⟨10, 7, 20, 8⟩, 0, 0⟩, ⟨"b", ⟨30, 3, 40, 4⟩, 0, 0⟩]

theorem C6_single_column_witness :
    List.Pairwise (fun a b => a.bbox.y0 < b.bbox.y0) (processPage singleColPage) :=
  (C6_single_column singleColPage 0 (by decide)).2.2.2 (by decide)

/-! ## Properties of the merged `y0` axis -/

theorem mem_allY (left_blocks right_blocks : List TextBlock) (y : ℚ) :
    y ∈ allY left_blocks right_blocks
      ↔ (∃ b ∈ left_blocks, b.bbox.y0 = y) ∨ (∃ b ∈ right_blocks, b.bbox.y0 = y) := by
  unfold allY
  rw [(List.perm_insertionSort _ _).mem_iff, List.mem_dedup, List.mem_append,
    List.mem_map, List.mem_map]

theorem allY_nodup (left_blocks right_blocks : List TextBlock) :
    (allY left_blocks right_blocks).Nodup :=
  ((List.perm_insertionSort _ _).nodup_iff).mpr (List.nodup_dedup _)

theorem allY_sorted (left_blocks right_blocks : List TextBlock) :
    (allY left_blocks right_blocks).Sorted (· < ·) := by
  have hle : (allY left_blocks right_blocks).Sorted (· ≤ ·) :=
    List.sorted_insertionSort _ _
  have hne : List.Pairwise (· ≠ ·) (allY left_blocks right_blocks) :=
    allY_nodup left_blocks right_blocks
  exact (hle.and hne).imp fun h => lt_of_le_of_ne h.1 h.2

/-! ## The interleaving merge as a permutation -/

theorem flatMap_append_perm {α β : Type} (ys : List α) (f g : α → List β) :
    (ys.flatMap fun y => f y ++ g y).Perm (ys.flatMap f ++ ys.flatMap g) := by
  induction ys with
  | nil => rfl
  | cons y ys ih =>
    simp only [List.flatMap_cons]
    refine (ih.append_left (f y ++ g y)).trans ?_
    rw [List.append_assoc, List.append_assoc]
    refine List.Perm.append_left (f y) ?_
    rw [← List.append_assoc, ← List.append_assoc]
    exact List.perm_append_comm.append_right (ys.flatMap g)

theorem filter_y_of_nodup (bs : List TextBlock)
    (hnd : (bs.map fun b => b.bbox.y0).Nodup) (y : ℚ) :
    (bs.filter fun b => decide (b.bbox.y0 = y)) = []
      ∨ ∃ b, (bs.filter fun b => decide (b.bbox.y0 = y)) = [b] := by
  induction bs with
  | nil => exact Or.inl rfl
  | cons a bs ih =>
    rw [List.map_cons, List.nodup_cons] at hnd
    by_cases ha : a.bbox.y0 = y
    · refine Or.inr ⟨a, ?_⟩
      rw [List.filter_cons_of_pos (by simpa using ha)]
      have hrest : (bs.filter fun b => decide (b.bbox.y0 = y)) = [] := by
        rw [List.filter_eq_nil_iff]
        intro b hb
        simp only [decide_eq_true_eq]
        intro hby
        exact hnd.1 (List.mem_map.mpr ⟨b, hb, by rw [hby, ha]⟩)
      rw [hrest]
    · rw [List.filter_cons_of_neg (by simpa using ha)]
      exact ih hnd.2

theorem flatMap_ymap_perm (ys : List ℚ) (bs : List TextBlock)
    (hys : ys.Nodup) (hnd : (bs.map fun b => b.bbox.y0).Nodup)
    (hcov : ∀ b ∈ bs, b.bbox.y0 ∈ ys) :
    (ys.flatMap fun y => (ymapOf bs y).toList).Perm bs := by
  induction ys generalizing bs with
  | nil =>
    cases bs with
    | nil => rfl
    | cons b bs => exact absurd (hcov b (List.mem_cons_self b bs)) (List.not_mem_nil _)
  | cons y ys ih =>
    rw [List.flatMap_cons, ymapOf_eq]
    rw [List.nodup_cons] at hys
    rcases filter_y_of_nodup bs hnd y with hnone | ⟨b, hb⟩
    · rw [hnone]
      simp only [List.getLast?_nil, Option.toList_none, List.nil_append]
      refine ih _ hys.2 hnd fun b hbmem => ?_
      rcases List.mem_cons.mp (hcov b hbmem) with h | h
      · exact absurd (List.mem_filter.mpr ⟨hbmem, decide_eq_true h⟩)
          (by rw [hnone]; exact List.not_mem_nil b)
      · exact h
    · rw [hb]
      simp only [List.getLast?_singleton, Option.toList_some, List.singleton_append]
      have hsplit := List.filter_append_perm (fun x => decide (x.bbox.y0 = y)) bs
      rw [hb, List.singleton_append] at hsplit
      set bs2 := bs.filter fun x => !(decide (x.bbox.y0 = y)) with hbs2
      have hsub : bs2.Sublist bs := List.filter_sublist bs
      have hrest : (ys.flatMap fun y2 => (ymapOf bs y2).toList)
          = ys.flatMap fun y2 => (ymapOf bs2 y2).toList := by
        rw [List.flatMap_def, List.flatMap_def]
        refine congrArg List.flatten (List.map_congr_left fun y2 hy2 => ?_)
        have hne : y2 ≠ y := fun h => hys.1 (h ▸ hy2)
        have hfeq : (bs.filter fun b2 => decide (b2.bbox.y0 = y2))
            = bs2.filter fun b2 => decide (b2.bbox.y0 = y2) := by
          rw [hbs2, List.filter_filter]
          refine List.filter_congr fun x _ => ?_
          by_cases hxy : x.bbox.y0 = y2
          · simp [hxy, hne]
          · simp [hxy]
        rw [ymapOf_eq, ymapOf_eq, hfeq]
      rw [hrest]
      have ihh := ih _ hys.2 ((hsub.map fun b => b.bbox.y0).nodup hnd)
        fun b2 hb2 => by
          have hmem := hsub.mem hb2
          have hne : ¬ b2.bbox.y0 = y := by
            have := (List.mem_filter.mp hb2).2
            simpa using this
          rcases List.mem_cons.mp (hcov b2 hmem) with h | h
          · exact absurd h hne
          · exact h
      exact (ihh.cons b).trans hsplit

/-! ## C1: the two-column interleaving characterization -/

theorem processPage_two_column (page_blocks : List TextBlock)
    (hl : ∃ b ∈ page_blocks, b.column = 0) (hr : ∃ b ∈ page_blocks, b.column = 1) :
    processPage page_blocks
      = interleave_columns (leftOf page_blocks) (rightOf page_blocks) := by
  obtain ⟨bl, hbl, hbl0⟩ := hl
  obtain ⟨br, hbr, hbr1⟩ := hr
  have hL : (leftOf page_blocks).isEmpty = false :=
    List.isEmpty_eq_false_iff_exists_mem.mpr
      ⟨bl, List.mem_filter.mpr
        ⟨(List.perm_insertionSort _ page_blocks).symm.subset hbl, decide_eq_true hbl0⟩⟩
  have hR : (rightOf page_blocks).isEmpty = false :=
    List.isEmpty_eq_false_iff_exists_mem.mpr
      ⟨br, List.mem_filter.mpr
        ⟨(List.perm_insertionSort _ page_blocks).symm.subset hbr, decide_eq_true hbr1⟩⟩
  unfold processPage
  rw [hL, hR]
  rfl

/-- C1: on a page with at least one LEFT-tagged and one RIGHT-tagged fragment,
the reconstructor's output is obtained from a per-side `y0`-keyed map in which
the later fragment in y-sorted order wins a `y0` collision (`getLast?` of the
fragments at that `y0`), iterated over the strictly-ascending merged list of
all distinct `y0` values of both sides, emitting left then right at each
`y0`. -/
theorem C1_interleave_characterization (page_blocks : List TextBlock)
    (hl : ∃ b ∈ page_blocks, b.column = 0) (hr : ∃ b ∈ page_blocks, b.column = 1) :
    ∃ ys : List ℚ,
      ys.Sorted (· < ·)
        ∧ (∀ y, y ∈ ys ↔ (∃ b ∈ leftOf page_blocks, b.bbox.y0 = y)
            ∨ (∃ b ∈ rightOf page_blocks, b.bbox.y0 = y))
        ∧ processPage page_blocks
            = ys.flatMap fun y =>
                ((leftOf page_blocks).filter fun b => decide (b.bbox.y0 = y)).getLast?.toList
                  ++ ((rightOf page_blocks).filter
                        fun b => decide (b.bbox.y0 = y)).getLast?.toList := by
  refine ⟨allY (leftOf page_blocks) (rightOf page_blocks), allY_sorted _ _,
    fun y => mem_allY _ _ y, ?_⟩
  rw [processPage_two_column page_blocks hl hr]
  show (allY (leftOf page_blocks) (rightOf page_blocks)).flatMap
      (fun y => (ymapOf (leftOf page_blocks) y).toList
        ++ (ymapOf (rightOf page_blocks) y).toList) = _
  exact congrArg _ (funext fun y => by rw [ymapOf_eq, ymapOf_eq])

/-- Concrete two-column page for the C1 witness. -/
def twoColPage : List TextBlock :=
  [⟨"L", ⟨10, 1, 20, 2⟩, 0, 0⟩, ⟨"R", ⟨300, 2, 310, 3⟩, 0, 1⟩]

theorem C1_interleave_characterization_witness :
    ∃ ys : List ℚ,
      ys.Sorted (· < ·)
        ∧ (∀ y, y ∈ ys ↔ (∃ b ∈ leftOf twoColPage, b.bbox.y0 = y)
            ∨ (∃ b ∈ rightOf twoColPage, b.bbox.y0 = y))
        ∧ processPage twoColPage
            = ys.flatMap fun y =>
                ((leftOf twoColPage).filter fun b => decide (b.bbox.y0 = y)).getLast?.toList
                  ++ ((rightOf twoColPage).filter
                        fun b => decide (b.bbox.y0 = y)).getLast?.toList :=
  C1_interleave_characterization twoColPage (by decide) (by decide)

/-! ## C9: what survives the interleaving merge -/

/-- C9: when the `y0` values are pairwise distinct on each side, the merge's
output is a permutation of its input fragments; in general a fragment survives
exactly when it is the last fragment of its side carrying its `y0` value, so
at a same-side `y0` collision every colliding fragment except the last is
silently dropped. -/
theorem C9_interleave_permutation (left_blocks right_blocks : List TextBlock) :
    ((left_blocks.map fun b => b.bbox.y0).Nodup →
        (right_blocks.map fun b => b.bbox.y0).Nodup →
        (interleave_columns left_blocks right_blocks).Perm (left_blocks ++ right_blocks))
      ∧ (∀ b, b ∈ interleave_columns left_blocks right_blocks
          ↔ (left_blocks.filter fun x => decide (x.bbox.y0 = b.bbox.y0)).getLast? = some b
            ∨ (right_blocks.filter
                fun x => decide (x.bbox.y0 = b.bbox.y0)).getLast? = some b) := by
  constructor
  · intro hndl hndr
    unfold interleave_columns
    refine (flatMap_append_perm _ _ _).trans (List.Perm.append ?_ ?_)
    · exact flatMap_ymap_perm _ _ (allY_nodup _ _) hndl
        fun b hb => (mem_allY _ _ _).mpr (Or.inl ⟨b, hb, rfl⟩)
    · exact flatMap_ymap_perm _ _ (allY_nodup _ _) hndr
        fun b hb => (mem_allY _ _ _).mpr (Or.inr ⟨b, hb, rfl⟩)
  · intro b
    unfold interleave_columns
    rw [List.mem_flatMap]
    constructor
    · rintro ⟨y, -, hy⟩
      rcases List.mem_append.mp hy with h | h
      · rw [Option.mem_toList, Option.mem_def, ymapOf_eq] at h
        have hy0 : b.bbox.y0 = y := by
          have hmem := (List.mem_filter.mp (List.mem_of_getLast?_eq_some h)).2
          simpa using hmem
        subst hy0
        exact Or.inl h
      · rw [Option.mem_toList, Option.mem_def, ymapOf_eq] at h
        have hy0 : b.bbox.y0 = y := by
          have hmem := (List.mem_filter.mp (List.mem_of_getLast?_eq_some h)).2
          simpa using hmem
        subst hy0
        exact Or.inr h
    · rintro (h | h)
      · refine ⟨b.bbox.y0, ?_, ?_⟩
        · exact (mem_allY _ _ _).mpr
            (Or.inl ⟨b, (List.mem_filter.mp (List.mem_of_getLast?_eq_some h)).1, rfl⟩)
        · rw [List.mem_append]
          exact Or.inl (by rw [Option.mem_toList, Option.mem_def, ymapOf_eq]; exact h)
      · refine ⟨b.bbox.y0, ?_, ?_⟩
        · exact (mem_allY _ _ _).mpr
            (Or.inr ⟨b, (List.mem_filter.mp (List.mem_of_getLast?_eq_some h)).1, rfl⟩)
        · rw [List.mem_append]
          exact Or.inr (by rw [Option.mem_toList, Option.mem_def, ymapOf_eq]; exact h)

theorem C9_interleave_permutation_witness :
    (interleave_columns [⟨"L", ⟨10, 1, 20, 2⟩, 0, 0⟩] [⟨"R", ⟨300, 2, 310, 3⟩, 0, 1⟩]).Perm
      ([⟨"L", ⟨10, 1, 20, 2⟩, 0, 0⟩] ++ [⟨"R", ⟨300, 2, 310, 3⟩, 0, 1⟩]) :=
  (C9_interleave_permutation _ _).1 (by decide) (by decide)

/-! ## C2: characterization of the boundary computation -/

theorem incAt_length (l : List ℕ) (j : ℕ) : (incAt l j).length = l.length := by
  induction l generalizing j with
  | nil => rfl
  | cons b bs ih =>
    cases j with
    | zero => rfl
    | succ j => simpa [incAt] using ih j

theorem incAt_getD (l : List ℕ) (j i : ℕ) (hi : i < l.length) :
    (incAt l j).getD i 0 = l.getD i 0 + (if i = j then 1 else 0) := by
  induction l generalizing i j with
  | nil => exact absurd hi (by simp)
  | cons b bs ih =>
    cases j with
    | zero =>
      cases i with
      | zero => simp [incAt]
      | succ i => simp [incAt]
    | succ j =>
      cases i with
      | zero => simp [incAt]
      | succ i =>
        have hi' : i < bs.length := by simpa using hi
        rw [show incAt (b :: bs) (j + 1) = b :: incAt bs j from rfl,
          List.getD_cons_succ, List.getD_cons_succ, ih j i hi']
        by_cases hij : i = j
        · simp [hij]
        · have hij' : ¬ (i + 1 = j + 1) := by omega
          simp [hij, hij']

theorem foldl_incAt_length (xs : List ℚ) (bw : ℚ) (init : List ℕ) :
    (xs.foldl (fun bins x => incAt bins (binIdx x bw)) init).length = init.length := by
  induction xs generalizing init with
  | nil => rfl
  | cons x xs ih => rw [List.foldl_cons, ih, incAt_length]

theorem foldl_incAt_getD (xs : List ℚ) (bw : ℚ) (init : List ℕ) (i : ℕ)
    (hi : i < init.length) :
    (xs.foldl (fun bins x => incAt bins (binIdx x bw)) init).getD i 0
      = init.getD i 0 + xs.countP fun x => decide (binIdx x bw = i) := by
  induction xs generalizing init with
  | nil => simp
  | cons x xs ih =>
    rw [List.foldl_cons, ih _ (by rw [incAt_length]; exact hi),
      incAt_getD _ _ _ hi, List.countP_cons]
    by_cases h : binIdx x bw = i
    · simp [h]
      omega
    · have h' : ¬ i = binIdx x bw := fun hh => h hh.symm
      simp [h, h']

theorem buildBins_length (xs : List ℚ) (bw : ℚ) : (buildBins xs bw).length = 20 := by
  unfold buildBins
  rw [foldl_incAt_length]
  simp

theorem buildBins_eq_map (xs : List ℚ) (bw : ℚ) :
    buildBins xs bw
      = (List.range 20).map fun i => xs.countP fun x => decide (binIdx x bw = i) := by
  refine List.ext_getElem (by rw [buildBins_length]; simp) fun i hi hi2 => ?_
  have hi20 : i < 20 := by simpa using hi2
  have h1 : (buildBins xs bw)[i] = (buildBins xs bw).getD i 0 :=
    (List.getD_eq_getElem _ _ hi).symm
  rw [h1]
  unfold buildBins
  rw [foldl_incAt_getD _ _ _ _ (by simp [hi20]),
    List.getD_eq_getElem _ _ (by simp [hi20]), List.getElem_replicate,
    List.getElem_map, List.getElem_range]
  simp

/-- Spec-side histogram (§4.1): the number of fragments whose binned left edge
is `i`, when the page is split into 20 bins of width `page_width / 20`. -/
def histSpec (blocks : List TextBlock) (i : ℕ) : ℕ :=
  blocks.countP fun b => decide (binIdx b.bbox.x0 (pageWidth blocks / 20) = i)

/-- Spec-side threshold: `0.3 ×` the maximum bin count. -/
def thresholdSpec (blocks : List TextBlock) : ℚ :=
  (maxNat ((List.range 20).map (histSpec blocks)) : ℚ) * (3 / 10)

/-- Spec-side valley list: interior bin indices `i ∈ 1..18` whose count is
below threshold while both neighbours are at or above it. -/
def valleysSpec (blocks : List TextBlock) : List ℕ :=
  (List.range' 1 18).filter fun i =>
    decide (((histSpec blocks i : ℕ) : ℚ) < thresholdSpec blocks
      ∧ thresholdSpec blocks ≤ ((histSpec blocks (i - 1) : ℕ) : ℚ)
      ∧ thresholdSpec blocks ≤ ((histSpec blocks (i + 1) : ℕ) : ℚ))

theorem getD_map_range (f : ℕ → ℕ) (j : ℕ) (hj : j < 20) :
    ((List.range 20).map f).getD j 0 = f j := by
  rw [List.getD_eq_getElem _ _ (by simpa using hj)]
  simp

theorem valleysOf_map_hist (blocks : List TextBlock) :
    valleysOf ((List.range 20).map (histSpec blocks)) (thresholdSpec blocks)
      = valleysSpec blocks := by
  unfold valleysOf valleysSpec
  refine List.filter_congr fun i hi => ?_
  have hi' : 1 ≤ i ∧ i < 19 := by simpa using List.mem_range'_1.mp hi
  rw [getD_map_range _ _ (by omega), getD_map_range _ _ (by omega),
    getD_map_range _ _ (by omega)]

theorem find_column_boundary_eq (x_positions : List ℚ) (page_width : ℚ) :
    find_column_boundary x_positions page_width
      = if x_positions.length < 4 then none
        else if (valleysOf (buildBins x_positions (page_width / 20))
            ((maxNat (buildBins x_positions (page_width / 20)) : ℚ) * (3 / 10))).isEmpty
          then none
          else some ((((valleysOf (buildBins x_positions (page_width / 20))
                ((maxNat (buildBins x_positions (page_width / 20)) : ℚ) * (3 / 10))).getD
                  ((valleysOf (buildBins x_positions (page_width / 20))
                    ((maxNat (buildBins x_positions (page_width / 20)) : ℚ)
                      * (3 / 10))).length / 2) 0 : ℕ) : ℚ) * (page_width / 20)) := rfl

/-- C2: whenever the page has at least 4 fragments (left-edge positions) and
the spec's valley list is nonempty, the detector returns exactly
`valleys[len(valleys) / 2] * (page_width / 20)`, where the histogram bins each
fragment's `x0` by integer division into 20 equal bins clamped at index 19,
`threshold = 0.3 ×` the maximum bin count, and a valley is an interior bin
below threshold flanked by bins at or above threshold.  The nonnegativity and
positive-width hypotheses delimit the domain on which the rational model
matches Python's semantics. -/
theorem C2_boundary_characterization (blocks : List TextBlock)
    (h4 : 4 ≤ blocks.length) (hx : ∀ b ∈ blocks, 0 ≤ b.bbox.x0)
    (hpw : 0 < pageWidth blocks) (hv : valleysSpec blocks ≠ []) :
    boundaryOfBlocks blocks
      = some ((((valleysSpec blocks).getD ((valleysSpec blocks).length / 2) 0 : ℕ) : ℚ)
          * (pageWidth blocks / 20)) := by
  have hlen : ((blocks.map fun b => b.bbox.x0).insertionSort (· ≤ ·)).length
      = blocks.length := by
    rw [(List.perm_insertionSort _ _).length_eq, List.length_map]
  have hbins : buildBins ((blocks.map fun b => b.bbox.x0).insertionSort (· ≤ ·))
      (pageWidth blocks / 20) = (List.range 20).map (histSpec blocks) := by
    rw [buildBins_eq_map]
    refine congrArg (fun f => List.map f (List.range 20)) (funext fun i => ?_)
    rw [(List.perm_insertionSort _ _).countP_eq, List.countP_map]
    rfl
  unfold boundaryOfBlocks
  rw [find_column_boundary_eq, hlen, if_neg (by omega), hbins]
  rw [show (maxNat ((List.range 20).map (histSpec blocks)) : ℚ) * (3 / 10)
      = thresholdSpec blocks from rfl, valleysOf_map_hist]
  rw [if_neg (by simpa [List.isEmpty_iff] using hv)]

/-- Concrete page with two tight left-edge clusters two bins apart, for the C2
witness: bins 0 and 2 hold two fragments each, bin 1 is the single valley, and
the returned boundary is `1 * (600 / 20) = 30`. -/
def clusterPage : List TextBlock :=
  [⟨"a", ⟨10, 1, 600, 2⟩, 0, 0⟩, ⟨"b", ⟨11, 2, 600, 3⟩, 0, 0⟩,
   ⟨"c", ⟨70, 3, 600, 4⟩, 0, 0⟩, ⟨"d", ⟨71, 4, 600, 5⟩, 0, 0⟩]

theorem C2_boundary_characterization_witness :
    boundaryOfBlocks clusterPage = some 30 := by
  have h := C2_boundary_characterization clusterPage (by decide)
    (by decide) (by with_unfolding_all decide) (by with_unfolding_all decide)
  rw [h]
  with_unfolding_all decide

/-! ## Normalizer: adjacency invariants of the substitution passes -/

/-- The adjacency condition satisfied by the normalizer's output: no
whitespace next to a newline and no two adjacent horizontal-whitespace
characters. -/
def goodPair (a b : Char) : Prop :=
  (a = '\n' → isSpacePy b = false) ∧ (b = '\n' → isSpacePy a = false)
    ∧ ¬(isHT a = true ∧ isHT b = true)

theorem chain'_and {α : Type} {R S : α → α → Prop} {l : List α}
    (hR : List.Chain' R l) (hS : List.Chain' S l) :
    List.Chain' (fun a b => R a b ∧ S a b) l := by
  induction l with
  | nil => simp
  | cons a l ih =>
    rw [List.chain'_cons'] at hR hS ⊢
    exact ⟨fun y hy => ⟨hR.1 y hy, hS.1 y hy⟩, ih hR.2 hS.2⟩

theorem chain'_of_within {α : Type} {R : α → α → Prop} {l₁ l₂ : List α}
    (h : l₁ <:+: l₂) (hc : List.Chain' R l₂) : List.Chain' R l₁ := by
  obtain ⟨s, u, rfl⟩ := h
  exact (List.chain'_append.mp (List.chain'_append.mp hc).1).2.1

theorem sub2_cons_cons_pos {c d : Char} (cs : List Char) (h : (isHT c && isHT d) = true) :
    sub2 (c :: d :: cs) = sub2 (d :: cs) := by
  simp [sub2, h]

theorem sub2_cons_cons_neg {c d : Char} (cs : List Char)
    (h : ¬ (isHT c && isHT d) = true) :
    sub2 (c :: d :: cs) = (if isHT c then ' ' else c) :: sub2 (d :: cs) := by
  simp [sub2, h]

theorem sub2_head (d : Char) (cs : List Char) :
    (sub2 (d :: cs)).head? = some (if isHT d then ' ' else d) := by
  induction cs generalizing d with
  | nil => rfl
  | cons e cs ih =>
    by_cases hde : (isHT d && isHT e) = true
    · rw [sub2_cons_cons_pos cs hde, ih e]
      rw [Bool.and_eq_true] at hde
      rw [if_pos hde.1, if_pos hde.2]
    · rw [sub2_cons_cons_neg cs hde]
      rfl

theorem sub2_no_tab (l : List Char) : '\t' ∉ sub2 l := by
  induction l with
  | nil => simp [sub2]
  | cons c cs ih =>
    cases cs with
    | nil =>
      intro hmem
      rw [show sub2 [c] = [if isHT c then ' ' else c] from rfl,
        List.mem_singleton] at hmem
      by_cases hc : isHT c = true
      · rw [if_pos hc] at hmem
        exact absurd hmem (by decide)
      · rw [if_neg hc] at hmem
        rw [← hmem] at hc
        exact hc (by decide)
    | cons d cs2 =>
      by_cases hcd : (isHT c && isHT d) = true
      · rw [sub2_cons_cons_pos cs2 hcd]
        exact ih
      · rw [sub2_cons_cons_neg cs2 hcd]
        intro hmem
        rcases List.mem_cons.mp hmem with h | h
        · by_cases hc : isHT c = true
          · rw [if_pos hc] at h
            exact absurd h (by decide)
          · rw [if_neg hc] at h
            rw [← h] at hc
            exact hc (by decide)
        · exact ih h

theorem sub2_chain (l : List Char) :
    List.Chain' (fun a b => ¬(isHT a = true ∧ isHT b = true)) (sub2 l) := by
  induction l with
  | nil => simp [sub2]
  | cons c cs ih =>
    cases cs with
    | nil =>
      rw [show sub2 [c] = [if isHT c then ' ' else c] from rfl]
      exact List.chain'_singleton _
    | cons d cs2 =>
      by_cases hcd : (isHT c && isHT d) = true
      · rw [sub2_cons_cons_pos cs2 hcd]
        exact ih
      · rw [sub2_cons_cons_neg cs2 hcd]
        rw [List.chain'_cons']
        refine ⟨fun y hy => ?_, ih⟩
        rw [sub2_head d cs2, Option.mem_def, Option.some_inj] at hy
        subst hy
        by_cases hc : isHT c = true
        · have hd : isHT d = false := by
            cases h2 : isHT d
            · rfl
            · exact absurd (by rw [hc, h2]; rfl) hcd
          simp [hc, hd]
        · simp [hc]

theorem sub3_cons_cons_pos {c d : Char} (cs : List Char) (h : (c == '\n' && d == ' ') = true) :
    sub3 (c :: d :: cs) = c :: sub3 cs := by
  simp [sub3, h]

theorem sub3_cons_cons_neg {c d : Char} (cs : List Char)
    (h : ¬ (c == '\n' && d == ' ') = true) :
    sub3 (c :: d :: cs) = c :: sub3 (d :: cs) := by
  simp [sub3, h]

theorem sub3_sublist (l : List Char) : (sub3 l).Sublist l := by
  induction l using sub3.induct with
  | case1 => exact List.Sublist.refl _
  | case2 c => exact List.Sublist.refl _
  | case3 c d cs h ih =>
    rw [sub3_cons_cons_pos cs h]
    exact (ih.cons _).cons₂ _
  | case4 c d cs h ih =>
    rw [sub3_cons_cons_neg cs h]
    exact ih.cons₂ _

theorem sub3_head (d : Char) (cs : List Char) : (sub3 (d :: cs)).head? = some d := by
  cases cs with
  | nil => rfl
  | cons e cs2 =>
    by_cases h : (d == '\n' && e == ' ') = true
    · rw [sub3_cons_cons_pos cs2 h]
      rfl
    · rw [sub3_cons_cons_neg cs2 h]
      rfl

theorem sub3_chain (l : List Char)
    (hc : List.Chain' (fun a b => ¬(isHT a = true ∧ isHT b = true)) l) :
    List.Chain' (fun a b => ¬(isHT a = true ∧ isHT b = true)) (sub3 l) := by
  induction l using sub3.induct with
  | case1 => simp [sub3]
  | case2 c => exact hc
  | case3 c d cs h ih =>
    rw [sub3_cons_cons_pos cs h]
    rw [Bool.and_eq_true, beq_iff_eq, beq_iff_eq] at h
    rw [List.chain'_cons'] at hc
    have hcs : List.Chain' (fun a b => ¬(isHT a = true ∧ isHT b = true)) cs := by
      rcases cs with _ | ⟨e, cs'⟩
      · simp
      · exact ((List.chain'_cons'.mp hc.2).2 : _)
    rw [List.chain'_cons']
    refine ⟨fun y hy => ?_, ih hcs⟩
    intro hcon
    rw [h.1] at hcon
    exact absurd hcon.1 (by decide)
  | case4 c d cs h ih =>
    rw [sub3_cons_cons_neg cs h]
    rw [List.chain'_cons'] at hc
    rw [List.chain'_cons']
    refine ⟨fun y hy => ?_, ih hc.2⟩
    rw [sub3_head d cs, Option.mem_def, Option.some_inj] at hy
    subst hy
    exact hc.1 _ rfl

/-! ## Normalizer: line-splitting facts -/

theorem splitNl_cons_nl (cs : List Char) : splitNl ('\n' :: cs) = [] :: splitNl cs := by
  simp [splitNl]

theorem splitNl_ne_nil (t : List Char) : splitNl t ≠ [] := by
  cases t with
  | nil => simp [splitNl]
  | cons c cs =>
    by_cases h : (c == '\n') = true
    · simp [splitNl, h]
    · simp only [splitNl, h]
      cases splitNl cs <;> simp

theorem splitNl_head_pre (t : List Char) :
    ∀ l rest, splitNl t = l :: rest → l <+: t := by
  induction t with
  | nil =>
    intro l rest h
    rw [show splitNl [] = [[]] from rfl] at h
    cases h
    exact List.nil_prefix
  | cons c cs ih =>
    intro l rest h
    by_cases hc : (c == '\n') = true
    · rw [show c = '\n' from beq_iff_eq.mp hc, splitNl_cons_nl] at h
      cases h
      exact List.nil_prefix
    · rw [show splitNl (c :: cs) = match splitNl cs with
          | [] => [[c]]
          | l :: ls => (c :: l) :: ls by simp [splitNl, hc]] at h
      rcases hsplit : splitNl cs with _ | ⟨l2, ls2⟩
      · exact absurd hsplit (splitNl_ne_nil cs)
      · rw [hsplit] at h
        obtain ⟨h1, h2⟩ := List.cons_eq_cons.mp h
        subst h1
        exact List.cons_prefix_cons.mpr ⟨rfl, ih l2 ls2 hsplit⟩

theorem mem_splitNl_no_nl (t : List Char) : ∀ p ∈ splitNl t, '\n' ∉ p := by
  induction t with
  | nil =>
    intro p hp
    rw [show splitNl [] = [[]] from rfl, List.mem_singleton] at hp
    subst hp
    exact List.not_mem_nil _
  | cons c cs ih =>
    intro p hp
    by_cases hc : (c == '\n') = true
    · rw [show c = '\n' from beq_iff_eq.mp hc, splitNl_cons_nl] at hp
      rcases List.mem_cons.mp hp with h | h
      · subst h
        exact List.not_mem_nil _
      · exact ih p h
    · rw [show splitNl (c :: cs) = match splitNl cs with
          | [] => [[c]]
          | l :: ls => (c :: l) :: ls by simp [splitNl, hc]] at hp
      rcases hsplit : splitNl cs with _ | ⟨l2, ls2⟩
      · exact absurd hsplit (splitNl_ne_nil cs)
      · rw [hsplit] at hp
        rcases List.mem_cons.mp hp with h | h
        · subst h
          intro hmem
          rcases List.mem_cons.mp hmem with h2 | h2
          · exact absurd h2.symm (by simpa using hc)
          · exact ih l2 (hsplit ▸ List.mem_cons_self l2 ls2) h2
        · exact ih p (hsplit ▸ List.mem_cons.mpr (Or.inr h))

theorem mem_splitNl_within (t : List Char) : ∀ p ∈ splitNl t, p <:+: t := by
  induction t with
  | nil =>
    intro p hp
    rw [show splitNl [] = [[]] from rfl, List.mem_singleton] at hp
    subst hp
    exact List.infix_refl _
  | cons c cs ih =>
    intro p hp
    by_cases hc : (c == '\n') = true
    · rw [show c = '\n' from beq_iff_eq.mp hc, splitNl_cons_nl] at hp
      rcases List.mem_cons.mp hp with h | h
      · subst h
        exact List.nil_infix
      · exact List.infix_cons (ih p h)
    · rw [show splitNl (c :: cs) = match splitNl cs with
          | [] => [[c]]
          | l :: ls => (c :: l) :: ls by simp [splitNl, hc]] at hp
      rcases hsplit : splitNl cs with _ | ⟨l2, ls2⟩
      · exact absurd hsplit (splitNl_ne_nil cs)
      · rw [hsplit] at hp
        rcases List.mem_cons.mp hp with h | h
        · subst h
          exact (List.cons_prefix_cons.mpr
            ⟨rfl, splitNl_head_pre cs l2 ls2 hsplit⟩).isInfix
        · exact List.infix_cons (ih p (hsplit ▸ List.mem_cons.mpr (Or.inr h)))

theorem splitNl_no_nl (l : List Char) (h : '\n' ∉ l) : splitNl l = [l] := by
  induction l with
  | nil => rfl
  | cons c cs ih =>
    have hc : ¬ (c == '\n') = true := by
      simp only [beq_iff_eq]
      intro hh
      exact h (hh ▸ List.mem_cons_self c cs)
    rw [show splitNl (c :: cs) = match splitNl cs with
        | [] => [[c]]
        | l :: ls => (c :: l) :: ls by simp [splitNl, hc]]
    rw [ih fun hm => h (List.mem_cons.mpr (Or.inr hm))]

theorem splitNl_append_nl (l rest : List Char) (h : '\n' ∉ l) :
    splitNl (l ++ '\n' :: rest) = l :: splitNl rest := by
  induction l with
  | nil => simpa using splitNl_cons_nl rest
  | cons c cs ih =>
    have hc : ¬ (c == '\n') = true := by
      simp only [beq_iff_eq]
      intro hh
      exact h (hh ▸ List.mem_cons_self c cs)
    rw [List.cons_append]
    rw [show splitNl (c :: (cs ++ '\n' :: rest)) = match splitNl (cs ++ '\n' :: rest) with
        | [] => [[c]]
        | l :: ls => (c :: l) :: ls by simp [splitNl, hc]]
    rw [ih fun hm => h (List.mem_cons.mpr (Or.inr hm))]

theorem splitNl_joinNl (L : List (List Char)) (hne : L ≠ [])
    (hnl : ∀ l ∈ L, '\n' ∉ l) : splitNl (joinNl L) = L := by
  induction L with
  | nil => exact absurd rfl hne
  | cons l ls ih =>
    cases ls with
    | nil =>
      rw [show joinNl [l] = l from rfl]
      exact splitNl_no_nl l (hnl l (List.mem_singleton_self l))
    | cons l2 ls2 =>
      rw [show joinNl (l :: l2 :: ls2) = l ++ '\n' :: joinNl (l2 :: ls2) from rfl]
      rw [splitNl_append_nl _ _ (hnl l (List.mem_cons_self l _))]
      rw [ih (by simp) fun p hp => hnl p (List.mem_cons.mpr (Or.inr hp))]

/-! ## Normalizer: stripping and identity passes -/

theorem dropWhile_head_false {p : Char → Bool} (l : List Char) :
    ∀ c rest, l.dropWhile p = c :: rest → p c = false := by
  induction l with
  | nil =>
    intro c rest h
    cases h
  | cons a l ih =>
    intro c rest h
    by_cases ha : p a = true
    · rw [List.dropWhile_cons, if_pos ha] at h
      exact ih c rest h
    · rw [List.dropWhile_cons, if_neg ha] at h
      obtain ⟨h1, h2⟩ := List.cons_eq_cons.mp h
      subst h1
      cases hpa : p a
      · rfl
      · exact absurd hpa ha

theorem stripL_pre (l : List Char) : stripL l <+: l.dropWhile isSpacePy := by
  have h := List.reverse_prefix.mpr
    (List.dropWhile_suffix (l := (l.dropWhile isSpacePy).reverse) isSpacePy)
  rw [List.reverse_reverse] at h
  exact h

theorem stripL_within (l : List Char) : stripL l <:+: l :=
  (stripL_pre l).isInfix.trans (List.dropWhile_suffix isSpacePy).isInfix

theorem stripL_head?_not_ws (p : List Char) :
    ∀ c ∈ (stripL p).head?, isSpacePy c = false := by
  intro c hc
  rcases hsp : stripL p with _ | ⟨c0, rest⟩
  · rw [hsp] at hc
    cases hc
  · rw [hsp, List.head?_cons, Option.mem_def, Option.some_inj] at hc
    subst hc
    obtain ⟨t, ht⟩ := stripL_pre p
    rw [hsp] at ht
    exact dropWhile_head_false p c0 (rest ++ t) ht.symm

theorem stripL_getLast?_not_ws (p : List Char) :
    ∀ c ∈ (stripL p).getLast?, isSpacePy c = false := by
  intro c hc
  unfold stripL at hc
  rw [List.getLast?_reverse] at hc
  rcases hsp : (p.dropWhile isSpacePy).reverse.dropWhile isSpacePy with _ | ⟨d, rest⟩
  · rw [hsp] at hc
    cases hc
  · rw [hsp, List.head?_cons, Option.mem_def, Option.some_inj] at hc
    exact hc ▸ dropWhile_head_false _ d rest hsp

theorem stripL_eq_self (l : List Char)
    (h1 : ∀ c ∈ l.head?, isSpacePy c = false)
    (h2 : ∀ c ∈ l.getLast?, isSpacePy c = false) : stripL l = l := by
  have hd : l.dropWhile isSpacePy = l := by
    cases l with
    | nil => rfl
    | cons c cs =>
      rw [List.dropWhile_cons,
        if_neg (by rw [h1 c (by rw [List.head?_cons]; rfl)]; exact Bool.false_ne_true)]
  unfold stripL
  rw [hd]
  have hr : l.reverse.dropWhile isSpacePy = l.reverse := by
    rcases hrev : l.reverse with _ | ⟨c, cs⟩
    · rfl
    · have hlast : c ∈ l.getLast? := by
        rw [← List.head?_reverse, hrev, List.head?_cons]
        rfl
      rw [List.dropWhile_cons, if_neg (by rw [h2 c hlast]; exact Bool.false_ne_true)]
  rw [hr, List.reverse_reverse]

/-- Adjacency condition under which the blank-line-collapsing pass is the
identity: no whitespace character sits next to a newline. -/
def nlIsolated (a b : Char) : Prop :=
  (a = '\n' → isSpacePy b = false) ∧ (b = '\n' → isSpacePy a = false)

theorem count_le_one_of_shape (acc : List Char) (hsh : '\n' ∈ acc → acc = ['\n']) :
    acc.count '\n' ≤ 1 := by
  by_cases h : '\n' ∈ acc
  · rw [hsh h]
    simp
  · rw [List.count_eq_zero.mpr h]
    omega

theorem wsTransform_id_of (w : List Char) (h : w.count '\n' ≤ 1) :
    wsTransform w = w := by
  unfold wsTransform
  rw [if_neg (by omega)]

theorem sub1Go_id (cs : List Char) : ∀ acc : List Char,
    (∀ c ∈ acc, isSpacePy c = true) → ('\n' ∈ acc → acc = ['\n']) →
    List.Chain' nlIsolated (acc.reverse ++ cs) →
    sub1Go acc cs = acc.reverse ++ cs := by
  induction cs with
  | nil =>
    intro acc hws hsh hch
    show wsTransform acc.reverse = acc.reverse ++ []
    rw [List.append_nil, wsTransform_id_of]
    rw [List.count_reverse]
    exact count_le_one_of_shape acc hsh
  | cons c cs ih =>
    intro acc hws hsh hch
    have hbound : ∀ x ∈ acc.head?, nlIsolated x c := by
      intro x hx
      have h3 := (List.chain'_append.mp hch).2.2
      rw [List.getLast?_reverse] at h3
      exact h3 x hx c (by rw [List.head?_cons]; rfl)
    by_cases hc : isSpacePy c = true
    · rw [show sub1Go acc (c :: cs) = sub1Go (c :: acc) cs by simp [sub1Go, hc]]
      have hacc' : ∀ x ∈ c :: acc, isSpacePy x = true := by
        intro x hx
        rcases List.mem_cons.mp hx with h | h
        · subst h
          exact hc
        · exact hws x h
      have hsh' : '\n' ∈ c :: acc → c :: acc = ['\n'] := by
        intro hmem
        rcases List.mem_cons.mp hmem with hceq | hmem2
        · rcases hacc : acc with _ | ⟨a, acc2⟩
          · rw [← hceq]
          · exfalso
            have hpair := hbound a (by rw [hacc, List.head?_cons]; rfl)
            have := hpair.2 hceq.symm
            rw [hws a (by rw [hacc]; exact List.mem_cons_self a acc2)] at this
            exact Bool.true_eq_false.mp this
        · exfalso
          have hacc1 := hsh hmem2
          have hpair := hbound '\n' (by rw [hacc1, List.head?_cons]; rfl)
          have := hpair.1 rfl
          rw [hc] at this
          exact Bool.true_eq_false.mp this
      have hch' : List.Chain' nlIsolated ((c :: acc).reverse ++ cs) := by
        rw [List.reverse_cons, List.append_assoc, List.singleton_append]
        exact hch
      rw [ih (c :: acc) hacc' hsh' hch', List.reverse_cons, List.append_assoc,
        List.singleton_append]
    · rw [show sub1Go acc (c :: cs) = wsTransform acc.reverse ++ c :: sub1Go [] cs by
        simp [sub1Go, hc]]
      rw [wsTransform_id_of _ (by rw [List.count_reverse]; exact count_le_one_of_shape acc hsh)]
      have hchcs : List.Chain' nlIsolated cs :=
        (List.chain'_cons'.mp (List.chain'_append.mp hch).2.1).2
      rw [ih [] (by simp) (by simp) (by simpa using hchcs)]
      rfl

theorem sub1_id (l : List Char) (h : List.Chain' nlIsolated l) : sub1 l = l := by
  have h2 := sub1Go_id l [] (by simp) (by simp) (by simpa using h)
  simpa [sub1] using h2

theorem sub2_id (l : List Char) (htab : '\t' ∉ l)
    (h : List.Chain' (fun a b => ¬(isHT a = true ∧ isHT b = true)) l) : sub2 l = l := by
  induction l with
  | nil => rfl
  | cons c cs ih =>
    have hc' : isHT c = true → c = ' ' := by
      intro hht
      rw [isHT, Bool.or_eq_true, beq_iff_eq, beq_iff_eq] at hht
      rcases hht with h1 | h1
      · exact h1
      · exact absurd (h1 ▸ List.mem_cons_self c cs) htab
    cases cs with
    | nil =>
      rw [show sub2 [c] = [if isHT c then ' ' else c] from rfl]
      by_cases hht : isHT c = true
      · rw [if_pos hht, hc' hht]
      · rw [if_neg hht]
    | cons d cs2 =>
      have hcd : ¬ (isHT c && isHT d) = true := by
        rw [Bool.and_eq_true]
        exact (List.chain'_cons'.mp h).1 d (by rw [List.head?_cons]; rfl)
      rw [sub2_cons_cons_neg cs2 hcd,
        ih (fun hm => htab (List.mem_cons.mpr (Or.inr hm))) (List.chain'_cons'.mp h).2]
      by_cases hht : isHT c = true
      · rw [if_pos hht, hc' hht]
      · rw [if_neg hht]

theorem sub3_id (l : List Char)
    (h : List.Chain' (fun a b => ¬(a = '\n' ∧ b = ' ')) l) : sub3 l = l := by
  induction l using sub3.induct with
  | case1 => rfl
  | case2 c => rfl
  | case3 c d cs hcd ih =>
    rw [Bool.and_eq_true, beq_iff_eq, beq_iff_eq] at hcd
    exact absurd ⟨hcd.1, hcd.2⟩ ((List.chain'_cons'.mp h).1 d (by rw [List.head?_cons]; rfl))
  | case4 c d cs hcd ih =>
    rw [sub3_cons_cons_neg cs hcd, ih (List.chain'_cons'.mp h).2]

/-! ## Normalizer: output shape and idempotence -/

theorem chain'_of_mem {α : Type} {P : α → Prop} (l : List α) (h : ∀ c ∈ l, P c) :
    List.Chain' (fun a b => P a ∧ P b) l := by
  induction l with
  | nil => simp
  | cons a l ih =>
    rw [List.chain'_cons']
    exact ⟨fun y hy => ⟨h a (List.mem_cons_self a l), h y
        (List.mem_cons.mpr (Or.inr (List.mem_of_mem_head? hy)))⟩,
      ih fun c hc => h c (List.mem_cons.mpr (Or.inr hc))⟩

theorem joinNl_ne_nil (L : List (List Char)) (hne : L ≠ [])
    (hl : ∀ l ∈ L, l ≠ []) : joinNl L ≠ [] := by
  cases L with
  | nil => exact absurd rfl hne
  | cons l ls =>
    cases ls with
    | nil => exact hl l (List.mem_singleton_self l)
    | cons l2 ls2 =>
      rw [show joinNl (l :: l2 :: ls2) = l ++ '\n' :: joinNl (l2 :: ls2) from rfl]
      cases l <;> simp

theorem mem_joinNl (L : List (List Char)) (c : Char) (h : c ∈ joinNl L) :
    (∃ l ∈ L, c ∈ l) ∨ c = '\n' := by
  induction L with
  | nil => cases h
  | cons l ls ih =>
    cases ls with
    | nil => exact Or.inl ⟨l, List.mem_singleton_self l, h⟩
    | cons l2 ls2 =>
      rw [show joinNl (l :: l2 :: ls2) = l ++ '\n' :: joinNl (l2 :: ls2) from rfl] at h
      rcases List.mem_append.mp h with h1 | h1
      · exact Or.inl ⟨l, List.mem_cons_self l _, h1⟩
      · rcases List.mem_cons.mp h1 with h2 | h2
        · exact Or.inr h2
        · rcases ih h2 with ⟨l3, hl3, hc3⟩ | h3
          · exact Or.inl ⟨l3, List.mem_cons.mpr (Or.inr hl3), hc3⟩
          · exact Or.inr h3

theorem joinNl_head (l : List Char) (ls : List (List Char)) (hl : l ≠ []) :
    (joinNl (l :: ls)).head? = l.head? := by
  cases ls with
  | nil => rfl
  | cons l2 ls2 =>
    rw [show joinNl (l :: l2 :: ls2) = l ++ '\n' :: joinNl (l2 :: ls2) from rfl]
    cases l with
    | nil => exact absurd rfl hl
    | cons c cs => rfl

theorem chain'_joinNl (L : List (List Char))
    (h : ∀ l ∈ L, l ≠ [] ∧ (∀ c ∈ l.head?, isSpacePy c = false)
        ∧ (∀ c ∈ l.getLast?, isSpacePy c = false) ∧ '\n' ∉ l
        ∧ List.Chain' (fun a b => ¬(isHT a = true ∧ isHT b = true)) l) :
    List.Chain' goodPair (joinNl L) := by
  induction L with
  | nil => simp [joinNl]
  | cons l ls ih =>
    obtain ⟨hne, hhead, hlast, hnl, hchain⟩ := h l (List.mem_cons_self l ls)
    have hline : List.Chain' goodPair l := by
      have hmem := chain'_of_mem l (fun c hc => show c ≠ '\n' from fun hh => hnl (hh ▸ hc))
      refine (chain'_and hmem hchain).imp fun a b hab => ?_
      exact ⟨fun ha => absurd ha hab.1.1, fun hb => absurd hb hab.1.2, hab.2⟩
    cases ls with
    | nil => exact hline
    | cons l2 ls2 =>
      rw [show joinNl (l :: l2 :: ls2) = l ++ '\n' :: joinNl (l2 :: ls2) from rfl]
      rw [List.chain'_append]
      obtain ⟨hne2, hhead2, hlast2, hnl2, hchain2⟩ := h l2 (by simp)
      refine ⟨hline, ?_, ?_⟩
      · rw [List.chain'_cons']
        refine ⟨fun y hy => ?_, ih fun p hp => h p (List.mem_cons.mpr (Or.inr hp))⟩
        rw [joinNl_head l2 ls2 hne2] at hy
        refine ⟨fun _ => hhead2 y hy, fun hy' => ?_, ?_⟩
        · exact absurd (hy' ▸ List.mem_of_mem_head? hy) hnl2
        · intro hcon
          exact absurd hcon.1 (by decide)
      · intro x hx y hy
        rw [List.head?_cons, Option.mem_def, Option.some_inj] at hy
        subst hy
        refine ⟨fun hx' => ?_, fun _ => hlast x hx, ?_⟩
        · exact absurd (hx' ▸ List.mem_of_mem_getLast? hx) hnl
        · intro hcon
          exact absurd hcon.2 (by decide)

/-- The shape of every line the normalizer emits: nonempty, stripped at both
ends, free of newlines, tabs and adjacent horizontal whitespace, and accepted
by the keep condition. -/
def GoodLine (l : List Char) : Prop :=
  l ≠ [] ∧ (∀ c ∈ l.head?, isSpacePy c = false) ∧ (∀ c ∈ l.getLast?, isSpacePy c = false)
    ∧ '\n' ∉ l ∧ '\t' ∉ l
    ∧ List.Chain' (fun a b => ¬(isHT a = true ∧ isHT b = true)) l
    ∧ keepLine l = true

/-- The shape of the normalizer's output: empty, or good lines joined by
single newlines. -/
def CleanOut (t : List Char) : Prop :=
  t = [] ∨ ∃ L, L ≠ [] ∧ (∀ l ∈ L, GoodLine l) ∧ t = joinNl L

theorem cleanL_cleanOut (t : List Char) : CleanOut (cleanL t) := by
  by_cases ht : t.isEmpty = true
  · left
    simp [cleanL, ht]
  · have hcl : cleanL t
        = joinNl (((splitNl (sub3 (sub2 (sub1 t)))).map stripL).filter keepLine) := by
      simp [cleanL, ht]
    rcases hMe : ((splitNl (sub3 (sub2 (sub1 t)))).map stripL).filter keepLine
        with _ | ⟨m, ms⟩
    · left
      rw [hcl, hMe]
      rfl
    · right
      refine ⟨m :: ms, by simp, ?_, by rw [hcl, hMe]⟩
      intro m2 hm2
      have hm3 : m2 ∈ ((splitNl (sub3 (sub2 (sub1 t)))).map stripL).filter keepLine := by
        rw [hMe]
        exact hm2
      have hkeep : keepLine m2 = true := (List.mem_filter.mp hm3).2
      obtain ⟨p, hp, rfl⟩ := List.mem_map.mp (List.mem_filter.mp hm3).1
      have hinf : stripL p <:+: sub3 (sub2 (sub1 t)) :=
        (stripL_within p).trans (mem_splitNl_within _ p hp)
      refine ⟨?_, stripL_head?_not_ws p, stripL_getLast?_not_ws p, ?_, ?_, ?_, hkeep⟩
      · intro hcon
        rw [keepLine, hcon] at hkeep
        simp at hkeep
      · intro hmem
        exact mem_splitNl_no_nl _ p hp ((stripL_within p).sublist.subset hmem)
      · intro hmem
        exact sub2_no_tab (sub1 t) ((sub3_sublist _).subset (hinf.sublist.subset hmem))
      · exact chain'_of_within hinf (sub3_chain _ (sub2_chain (sub1 t)))

theorem cleanL_id_of_cleanOut (t : List Char) (h : CleanOut t) : cleanL t = t := by
  rcases h with rfl | ⟨L, hne, hL, rfl⟩
  · rfl
  · have hlne : ∀ l ∈ L, l ≠ [] := fun l hl => (hL l hl).1
    have htne : joinNl L ≠ [] := joinNl_ne_nil L hne hlne
    have hchain : List.Chain' goodPair (joinNl L) :=
      chain'_joinNl L fun l hl => ⟨(hL l hl).1, (hL l hl).2.1, (hL l hl).2.2.1,
        (hL l hl).2.2.2.1, (hL l hl).2.2.2.2.2.1⟩
    have hs1 : sub1 (joinNl L) = joinNl L :=
      sub1_id _ (hchain.imp fun a b hab => ⟨hab.1, hab.2.1⟩)
    have htab : '\t' ∉ joinNl L := by
      intro hmem
      rcases mem_joinNl L '\t' hmem with ⟨l, hl, hc⟩ | hc
      · exact (hL l hl).2.2.2.2.1 hc
      · exact absurd hc (by decide)
    have hs2 : sub2 (joinNl L) = joinNl L :=
      sub2_id _ htab (hchain.imp fun a b hab => hab.2.2)
    have hs3 : sub3 (joinNl L) = joinNl L := by
      refine sub3_id _ (hchain.imp fun a b hab => ?_)
      intro hcon
      have h2 := hab.1 hcon.1
      rw [hcon.2] at h2
      exact absurd h2 (by decide)
    have hsplit : splitNl (joinNl L) = L :=
      splitNl_joinNl L hne fun l hl => (hL l hl).2.2.2.1
    have hmap : L.map stripL = L := by
      rw [List.map_congr_left fun l hl => stripL_eq_self l (hL l hl).2.1 (hL l hl).2.2.1]
      exact List.map_id L
    have hfilter : L.filter keepLine = L :=
      List.filter_eq_self.mpr fun l hl => (hL l hl).2.2.2.2.2.2
    unfold cleanL
    rw [if_neg (by simpa [List.isEmpty_iff] using htne), hs1, hs2, hs3, hsplit,
      hmap, hfilter]

/-! ## C7: Scenario D through the normalizer -/

/-- C7 counterexample: the claim says the Normalizer maps
`"Page\n\n\n5\n\nReal content here"` to exactly `"Real content here"`, but the
line `"Page"` survives every filter (it is 4 characters long and not purely
numeric), so the output is not `"Real content here"`. -/
theorem C7_counterexample :
    clean_extracted_text "Page\n\n\n5\n\nReal content here" ≠ "Real content here" := by
  decide

/-- C7 amended: the Normalizer maps `"Page\n\n\n5\n\nReal content here"` to
`"Page\nReal content here"`: the blank lines collapse, the purely numeric line
`"5"` and the empty lines are dropped, but the line `"Page"` (length ≥ 3, not
numeric) is kept. -/
theorem C7_scenario_d :
    clean_extracted_text "Page\n\n\n5\n\nReal content here"
      = "Page\nReal content here" := by
  decide

/-! ## C8: idempotence of the normalizer -/

/-- C8: the Text Normalizer is idempotent — applying `clean_extracted_text`
twice yields the same string as applying it once.  The output always consists
of nonempty stripped lines joined by single newlines, on which all three
regex substitution passes and the line filter act as the identity. -/
theorem C8_normalizer_idempotent (s : String) :
    clean_extracted_text (clean_extracted_text s) = clean_extracted_text s := by
  show String.mk (cleanL (String.mk (cleanL s.data)).data) = String.mk (cleanL s.data)
  exact congrArg String.mk (cleanL_id_of_cleanOut _ (cleanL_cleanOut s.data))
